import Mathlib

set_option maxRecDepth 4000

namespace FetchUI

/-!
Shallow embedding of the fetch-ui registry server
(`packages/registry/src/controllers/components.ts`,
`packages/registry/src/storage/filesystem.ts`,
`middleware/error.ts`, `types/component.ts`), of the CLI error path
(`packages/cli/src/cli/index.ts`), and of the spec-level dependency
resolver and install transaction.

JSON payloads are modelled as `Json` values (the result of a successful
`JSON.parse`); objects are ordered key-value lists, matching the ordered
own-property semantics of JavaScript objects.
-/

inductive Json where
  | null : Json
  | bool (b : Bool) : Json
  | num (n : Int) : Json
  | str (s : String) : Json
  | arr (elems : List Json) : Json
  | obj (fields : List (String × Json)) : Json

/-- The `style` enum of `ComponentMetadataSchema` (`z.enum(['default', 'minimal'])`). -/
inductive StyleOpt where
  | default
  | minimal
  deriving DecidableEq, Repr

/-- The `type` enum of `ComponentFileSchema`. -/
inductive FileKind where
  | typescript
  | javascript
  | css
  | scss
  | less
  | json
  deriving DecidableEq, Repr

/-- One entry of `ComponentSchema.files` (`ComponentFileSchema`). -/
structure ComponentFile where
  path : String
  content : String
  kind : FileKind
  deriving DecidableEq, Repr

/-- `ComponentMetadataSchema` from `types/component.ts`. -/
structure ComponentMetadata where
  name : String
  version : String
  description : Option String
  author : Option String
  license : Option String
  repository : Option String
  dependencies : Option (List (String × String))
  peerDependencies : Option (List (String × String))
  style : Option StyleOpt
  typescript : Option Bool
  tags : Option (List String)
  deriving DecidableEq, Repr

/-- `ComponentSchema` from `types/component.ts` (the ComponentManifest shape). -/
structure Component where
  metadata : ComponentMetadata
  files : List ComponentFile
  readme : Option String
  changelog : Option String
  deriving DecidableEq, Repr

/-- First binding of key `k` in an object's field list (JS objects have unique keys). -/
def getField (fields : List (String × Json)) (k : String) : Option Json :=
  (fields.find? (fun kv => kv.1 == k)).map (fun kv => kv.2)

def asString : Json → Option String
  | .str s => some s
  | _ => none

def asBool : Json → Option Bool
  | .bool b => some b
  | _ => none

def asStyle : Json → Option StyleOpt
  | .str "default" => some .default
  | .str "minimal" => some .minimal
  | _ => none

def asFileKind : Json → Option FileKind
  | .str "typescript" => some .typescript
  | .str "javascript" => some .javascript
  | .str "css" => some .css
  | .str "scss" => some .scss
  | .str "less" => some .less
  | .str "json" => some .json
  | _ => none

def asStringList : Json → Option (List String)
  | .arr xs => xs.mapM asString
  | _ => none

/-- `z.record(z.string())`: an object whose values are all strings. -/
def asStringRecord : Json → Option (List (String × String))
  | .obj fields => fields.mapM (fun kv => (asString kv.2).map (fun s => (kv.1, s)))
  | _ => none

/-- `.optional()` key: absent key (`none`) parses to `none`;
a present value must satisfy the inner schema (`null` is rejected). -/
def optKey (p : Json → Option α) : Option Json → Option (Option α)
  | none => some none
  | some v => (p v).map some

def parseComponentFile : Json → Option ComponentFile
  | .obj fields => do
    let p ← getField fields "path" >>= asString
    let c ← getField fields "content" >>= asString
    let t ← getField fields "type" >>= asFileKind
    some { path := p, content := c, kind := t }
  | _ => none

def parseMetadata : Json → Option ComponentMetadata
  | .obj fields => do
    let name ← getField fields "name" >>= asString
    let version ← getField fields "version" >>= asString
    let description ← optKey asString (getField fields "description")
    let author ← optKey asString (getField fields "author")
    let license ← optKey asString (getField fields "license")
    let repository ← optKey asString (getField fields "repository")
    let dependencies ← optKey asStringRecord (getField fields "dependencies")
    let peerDependencies ← optKey asStringRecord (getField fields "peerDependencies")
    let style ← optKey asStyle (getField fields "style")
    let typescript ← optKey asBool (getField fields "typescript")
    let tags ← optKey asStringList (getField fields "tags")
    some { name, version, description, author, license, repository,
           dependencies, peerDependencies, style, typescript, tags }
  | _ => none

/-- `ComponentSchema.parse` as a partial function: `none` models a thrown `ZodError`.
Success yields the structured component; unknown keys are dropped, as zod's
default object mode strips them. -/
def parseComponent : Json → Option Component
  | .obj fields => do
    let md ← getField fields "metadata" >>= parseMetadata
    let fs ← match getField fields "files" with
             | some (.arr xs) => xs.mapM parseComponentFile
             | _ => none
    let readme ← optKey asString (getField fields "readme")
    let changelog ← optKey asString (getField fields "changelog")
    some { metadata := md, files := fs, readme, changelog }
  | _ => none

def renderStyle : StyleOpt → Json
  | .default => .str "default"
  | .minimal => .str "minimal"

def renderFileKind : FileKind → Json
  | .typescript => .str "typescript"
  | .javascript => .str "javascript"
  | .css => .str "css"
  | .scss => .str "scss"
  | .less => .str "less"
  | .json => .str "json"

/-- A key that is present only when the optional field is set (absent optional
keys are absent in zod's output and dropped again by `JSON.stringify`). -/
def optJsonKey (k : String) (v : Option Json) : List (String × Json) :=
  match v with
  | none => []
  | some j => [(k, j)]

def renderRecord (kvs : List (String × String)) : Json :=
  .obj (kvs.map (fun kv => (kv.1, .str kv.2)))

def renderMetadata (m : ComponentMetadata) : Json :=
  .obj ([("name", .str m.name), ("version", .str m.version)]
    ++ optJsonKey "description" (m.description.map .str)
    ++ optJsonKey "author" (m.author.map .str)
    ++ optJsonKey "license" (m.license.map .str)
    ++ optJsonKey "repository" (m.repository.map .str)
    ++ optJsonKey "dependencies" (m.dependencies.map renderRecord)
    ++ optJsonKey "peerDependencies" (m.peerDependencies.map renderRecord)
    ++ optJsonKey "style" (m.style.map renderStyle)
    ++ optJsonKey "typescript" (m.typescript.map .bool)
    ++ optJsonKey "tags" (m.tags.map (fun ts => .arr (ts.map .str))))

def renderComponentFile (f : ComponentFile) : Json :=
  .obj [("path", .str f.path), ("content", .str f.content), ("type", renderFileKind f.kind)]

/-- The JSON shape of a parsed component as serialized by `res.json` /
`JSON.stringify` (zod output key order = schema declaration order). -/
def renderComponent (c : Component) : Json :=
  .obj ([("metadata", renderMetadata c.metadata),
         ("files", .arr (c.files.map renderComponentFile))]
    ++ optJsonKey "readme" (c.readme.map .str)
    ++ optJsonKey "changelog" (c.changelog.map .str))

/-! ## Filesystem model (`storage/filesystem.ts`)

The registry server injects `FilesystemStorage` as its `StorageProvider`
(`container.ts`).  The tree under `rootDir` is modelled as an association
list from slash-split relative paths (segment lists) to file contents,
plus the set of directories that have been created. -/

abbrev SegPath := List String

/-- Association-list lookup by key. -/
def alookup [BEq κ] (l : List (κ × α)) (k : κ) : Option α :=
  (l.find? (fun e => e.1 == k)).map (fun e => e.2)

/-- Remove every binding of a key. -/
def aerase [BEq κ] (l : List (κ × α)) (k : κ) : List (κ × α) :=
  l.filter (fun e => !(e.1 == k))

/-- a tree under `rootDir`: files with their contents and created
directories, both keyed by slash-split relative paths. -/
structure FsState (α : Type) where
  files : List (SegPath × α)
  dirs : List SegPath

/-- `a` is a (possibly non-strict) leading segment sequence of `b`. -/
def segLe : SegPath → SegPath → Bool
  | [], _ => true
  | _, [] => false
  | a :: as, b :: bs => a == b && segLe as bs

def storeRead (fs : FsState α) (p : SegPath) : Option α :=
  alookup fs.files p

inductive FsErr where
  | enoent
  | enotdir
  | eisdir
  deriving DecidableEq, Repr

/-- `readFile`: ENOENT when the path holds no file. -/
def fsRead (fs : FsState α) (p : SegPath) : Except FsErr α :=
  match storeRead fs p with
  | some c => .ok c
  | none => .error .enoent

/-- First-occurrence deduplication, with an accumulator of already-seen
keys. -/
def dedupAcc [BEq κ] : List κ → List κ → List κ
  | _, [] => []
  | seen, x :: xs =>
    if seen.contains x then dedupAcc seen xs
    else x :: dedupAcc (x :: seen) xs

def dedupFirst [BEq κ] (l : List κ) : List κ :=
  dedupAcc [] l

/-- All truncations of a non-empty relative rest-path: the entries
`readdir(dir, { recursive: true })` reports below a directory include every
intermediate directory as well as the leaf itself. -/
def relCuts (rest : SegPath) : List SegPath :=
  (List.range rest.length).map (fun k => rest.take (k + 1))

/-- Every file path and directory path present in the tree. -/
def fsObjects (fs : FsState α) : List SegPath :=
  fs.files.map (fun e => e.1) ++ fs.dirs

def fileInFs (fs : FsState α) (p : SegPath) : Bool :=
  fs.files.any (fun e => e.1 == p)

/-- A directory exists when it was created, when some object lies strictly
below it, or when it is the storage root itself. -/
def dirInFs (fs : FsState α) (pfx : SegPath) : Bool :=
  pfx.isEmpty || fs.dirs.contains pfx ||
    (fsObjects fs).any (fun q => segLe pfx q && decide (pfx.length < q.length))

/-- The recursive directory listing relative to `pfx`: every leading cut of
every object strictly below `pfx`. -/
def belowEntries (fs : FsState α) (pfx : SegPath) : List SegPath :=
  dedupFirst (((fsObjects fs).filter
      (fun q => segLe pfx q && decide (pfx.length < q.length))).flatMap
    (fun q => relCuts (q.drop pfx.length)))

/-- `readdir(join(root, pfx), { recursive: true })`: entries relative to the
directory, directories as well as files; ENOENT when nothing exists at the
path, ENOTDIR when a file (not a directory) sits there. -/
def fsReaddir (fs : FsState α) (pfx : SegPath) : Except FsErr (List SegPath) :=
  if dirInFs fs pfx then .ok (belowEntries fs pfx)
  else if fileInFs fs pfx then .error .enotdir
  else .error .enoent

/-- `FilesystemStorage.list`: each entry is re-joined with the prefix
(`join(prefix, entry)`, then `relative(rootDir, join(rootDir, ·))`, which
normalizes back to the joined relative path); an ENOENT from `readdir` is
swallowed and yields the empty list, any other error is rethrown. -/
def fsList (fs : FsState α) (pfx : SegPath) : Except FsErr (List SegPath) :=
  match fsReaddir fs pfx with
  | .ok es => .ok (es.map (fun e => pfx ++ e))
  | .error .enoent => .ok []
  | .error e => .error e

/-- `mkdir(path, { recursive: true })`: creates the directory and every
missing ancestor; ENOTDIR when a file occupies the path or an ancestor. -/
def mkdirRec (fs : FsState α) (d : SegPath) : Except FsErr (FsState α) :=
  if (relCuts d).any (fun q => fileInFs fs q) then .error .enotdir
  else .ok { fs with dirs := fs.dirs ++ ((relCuts d).filter (fun q => !fs.dirs.contains q)) }

/-- Bare `writeFile`: requires the parent directory to exist and the path not
to be a directory; overwrites an existing file. -/
def writeFileRaw (fs : FsState α) (p : SegPath) (c : α) : Except FsErr (FsState α) :=
  if dirInFs fs p then .error .eisdir
  else if p.dropLast.isEmpty || dirInFs fs p.dropLast then
    .ok { fs with files := aerase fs.files p ++ [(p, c)] }
  else .error .enoent

/-- `FilesystemStorage.write`: `mkdir(join(fullPath, '..'), { recursive: true })`
followed by `writeFile(fullPath, content)`. -/
def fsWrite (fs : FsState α) (p : SegPath) (c : α) : Except FsErr (FsState α) := do
  let fs1 ← mkdirRec fs p.dropLast
  writeFileRaw fs1 p c

/-! ## Controller model (`controllers/components.ts` + `middleware/error.ts`) -/

/-- Errors reaching the express error handler. -/
inductive CtrlErr where
  | api (code : String) (message : String)
  | zod
  | fileSys (e : FsErr)
  | typeError
  deriving DecidableEq, Repr

structure ErrBody where
  code : String
  message : String
  deriving DecidableEq, Repr

/-- The status table of `errorHandler` for `APIError`s; unknown codes fall
back to 500. -/
def statusOfApiCode (code : String) : Nat :=
  if code == "COMPONENT_NOT_FOUND" then 404
  else if code == "VERSION_NOT_FOUND" then 404
  else if code == "VERSION_CONFLICT" then 409
  else 500

/-- `middleware/error.ts`: ZodError ↦ 400 VALIDATION_ERROR, APIError ↦ its
table status, anything else ↦ 500 INTERNAL_ERROR. -/
def errorHandler : CtrlErr → Nat × ErrBody
  | .zod => (400, ⟨"VALIDATION_ERROR", "Invalid request data"⟩)
  | .api code msg => (statusOfApiCode code, ⟨code, msg⟩)
  | _ => (500, ⟨"INTERNAL_ERROR", "Internal server error"⟩)

def liftFs (r : Except FsErr α) : Except CtrlErr α :=
  match r with
  | .ok a => .ok a
  | .error e => .error (.fileSys e)

/-- `storage.read`: a missing path raises ENOENT. -/
def liftRead (o : Option Json) : Except CtrlErr Json :=
  match o with
  | some j => .ok j
  | none => .error (.fileSys .enoent)

/-- JavaScript property access `v[k]` as used by the list controller:
reading a property of `undefined` or `null` throws a TypeError; on other
non-objects it yields `undefined`. -/
def jsProp (v : Option Json) (k : String) : Except CtrlErr (Option Json) :=
  match v with
  | none => .error .typeError
  | some .null => .error .typeError
  | some (.obj fields) => .ok (getField fields k)
  | some _ => .ok none

def joinSeg (p : SegPath) : String :=
  String.intercalate "/" p

/-- Lexicographic comparison of character sequences by code point (equal to
JS's UTF-16 code-unit comparison on the ASCII paths involved here). -/
def charListLe : List Char → List Char → Bool
  | [], _ => true
  | _ :: _, [] => false
  | a :: as, b :: bs =>
    if a.toNat < b.toNat then true
    else if b.toNat < a.toNat then false
    else charListLe as bs

def jsStrLe (a b : String) : Bool :=
  charListLe a.data b.data

/-- JS `Array.prototype.sort()` compares elements as strings; the controller
sorts version entries, which are slash-joined paths. -/
def insertSortedSeg (x : SegPath) : List SegPath → List SegPath
  | [] => [x]
  | y :: ys =>
    if jsStrLe (joinSeg x) (joinSeg y) then x :: y :: ys
    else y :: insertSortedSeg x ys

def sortSeg : List SegPath → List SegPath
  | [] => []
  | x :: xs => insertSortedSeg x (sortSeg xs)

/-- Raw field values an entry of the component list is built from
(`component.metadata.name`, `.version`, `.description`, `.tags`). -/
structure RawEntry where
  name : Option Json
  latestVersion : Option Json
  description : Option Json
  tags : Option Json

/-- One loop iteration of `ComponentsController.list`: list the versions of
one directory entry, skip it when empty, otherwise read the latest
version's payload and extract the metadata fields. -/
def listEntryStep (store : FsState Json) (acc : List RawEntry) (dir : SegPath) :
    Except CtrlErr (List RawEntry) := do
  let versions ← liftFs (fsList store (["components"] ++ dir))
  match (sortSeg versions).getLast? with
  | none => pure acc
  | some latest => do
    let payload ← liftRead (storeRead store
      (["components"] ++ dir ++ latest ++ ["component.json"]))
    let md ← jsProp (some payload) "metadata"
    let n ← jsProp md "name"
    let v ← jsProp md "version"
    let d ← jsProp md "description"
    let t ← jsProp md "tags"
    pure (acc ++ [⟨n, v, d, t⟩])

/-- The full per-component entry list built by `ComponentsController.list`
before pagination. -/
def listEntries (store : FsState Json) : Except CtrlErr (List RawEntry) := do
  let componentDirs ← liftFs (fsList store ["components"])
  componentDirs.foldlM (listEntryStep store) []

structure ListEntry where
  name : String
  latestVersion : String
  description : Option String
  tags : Option (List String)
  deriving DecidableEq, Repr

/-- `ComponentListResponseSchema` validation of one entry. -/
def validateEntry (r : RawEntry) : Option ListEntry := do
  let n ← r.name >>= asString
  let v ← r.latestVersion >>= asString
  let d ← optKey asString r.description
  let t ← optKey asStringList r.tags
  some { name := n, latestVersion := v, description := d, tags := t }

structure ListResponse where
  components : List ListEntry
  total : Nat
  page : Nat
  pageSize : Nat
  deriving DecidableEq, Repr

inductive HttpResponse where
  | okList (r : ListResponse)
  | okDetail (component : Json) (versions : List String)
  | okJson (body : Json)
  | createdJson (body : Json)
  | err (status : Nat) (body : ErrBody)

/-- `parseInt(q) || d`: an absent/NaN query value and an explicit `0` both
fall back to the default. -/
def effQuery (d : Nat) : Option Nat → Nat
  | some (n + 1) => n + 1
  | _ => d

def respondErr (e : CtrlErr) : HttpResponse :=
  .err (errorHandler e).1 (errorHandler e).2

/-- `GET /components`: paginate the entry list with
`slice((page-1)*pageSize, page*pageSize)`, then validate the response
against `ComponentListResponseSchema`. -/
def handleList (store : FsState Json) (page pageSize : Option Nat) : HttpResponse :=
  let p := effQuery 1 page
  let s := effQuery 10 pageSize
  match listEntries store with
  | .error e => respondErr e
  | .ok entries =>
    match ((entries.drop ((p - 1) * s)).take s).mapM validateEntry with
    | none => respondErr .zod
    | some ces => .okList ⟨ces, entries.length, p, s⟩

/-- `ComponentsController.getDetails` behind the error middleware.
`versions.sort().pop()` sorts the entry array in place and then removes its
last element, so the reported version list excludes the popped entry. -/
def handleGetDetails (store : FsState Json) (name : String) : HttpResponse :=
  match fsList store ["components", name] with
  | .error e => respondErr (.fileSys e)
  | .ok versions =>
    match (sortSeg versions).getLast? with
    | none => respondErr (.api "COMPONENT_NOT_FOUND" "Component not found")
    | some latest =>
      match storeRead store (["components", name] ++ latest ++ ["component.json"]) with
      | none => respondErr (.fileSys .enoent)
      | some payload =>
        match parseComponent payload with
        | none => respondErr .zod
        | some c =>
          .okDetail (renderComponent c) (((sortSeg versions).dropLast).map joinSeg)

/-- `ComponentsController.getVersion` behind the error middleware: an ENOENT
from the read is mapped to `VERSION_NOT_FOUND`; a `ZodError` from
`ComponentSchema.parse` is rethrown (its `code` is not `'ENOENT'`). -/
def handleGetVersion (store : FsState Json) (name version : String) : HttpResponse :=
  match storeRead store ["components", name, version, "component.json"] with
  | none => respondErr (.api "VERSION_NOT_FOUND" "Version not found")
  | some payload =>
    match parseComponent payload with
    | none => respondErr .zod
    | some c => .okJson (renderComponent c)

/-- `POST /components` (validation middleware + `ComponentsController.create`):
on a successful body parse, a successful read of the version path raises
`VERSION_CONFLICT` (rethrown, its `code` is not `'ENOENT'`) before anything
is written; only an ENOENT lets the write proceed. -/
def handleCreate (store : FsState Json) (body : Json) : HttpResponse × FsState Json :=
  match parseComponent body with
  | none => (respondErr .zod, store)
  | some c =>
    match storeRead store
        ["components", c.metadata.name, c.metadata.version, "component.json"] with
    | some _ =>
      (respondErr (.api "VERSION_CONFLICT" "Version already exists"), store)
    | none =>
      match mkdirRec store
          ["components", c.metadata.name, c.metadata.version] with
      | .error e => (respondErr (.fileSys e), store)
      | .ok store1 =>
        match writeFileRaw store1
            ["components", c.metadata.name, c.metadata.version, "component.json"]
            (renderComponent c) with
        | .error e => (respondErr (.fileSys e), store1)
        | .ok store2 => (.createdJson (renderComponent c), store2)

/-! ## Dependency resolver

Modelled from the spec: the Dependency Resolver of §4.2 has no
implementation under src/ (only design documents and test skeletons refer
to it).  The model follows the spec's words: a traversal from the root
that keeps a `visiting` set of ancestors on the current path and a
`resolved` map across the whole traversal; a name already in `visiting`
fails with `CyclicDependency` reporting the full cycle path; a name
already resolved is skipped; cycle detection comes first, so a cycle is
never silently broken. -/

/-- A registry as the resolver sees it: component name ↦ declared
component-dependency names. -/
abbrev SpecRegistry := List (String × List String)

def regLookup (reg : SpecRegistry) (n : String) : Option (List String) :=
  (reg.find? (fun e => e.1 == n)).map (fun e => e.2)

def regDeps (reg : SpecRegistry) (n : String) : List String :=
  (regLookup reg n).getD []

def regNames (reg : SpecRegistry) : List String :=
  reg.map (fun e => e.1)

inductive ResolveErr where
  | notFound (name : String)
  | cyclic (path : List String)
  | fuelOut
  deriving DecidableEq, Repr

/-- Modelled from the spec: one resolution step.  `visiting` is the ancestor
path, `resolved` the set of names already fully resolved; the result is the
extended resolved set, in completion order with the most recent first. -/
def resolveGo (reg : SpecRegistry) :
    Nat → List String → List String → String → Except ResolveErr (List String)
  | 0, _, _, _ => .error .fuelOut
  | fuel + 1, visiting, resolved, name =>
    if name ∈ visiting then .error (.cyclic (visiting ++ [name]))
    else if name ∈ resolved then .ok resolved
    else
      match regLookup reg name with
      | none => .error (.notFound name)
      | some deps =>
        (deps.foldlM (fun acc d => resolveGo reg fuel (visiting ++ [name]) acc d)
          resolved).map (fun r => name :: r)

/-- Modelled from the spec: `resolve(root)`; the fuel bound exceeds the
number of registry entries, so it can never run out on a well-formed
registry. -/
def resolve (reg : SpecRegistry) (root : String) : Except ResolveErr (List String) :=
  resolveGo reg (reg.length + 1) [] [] root

/-- `p` is a dependency path: consecutive elements are linked by declared
component dependencies. -/
inductive IsDepPath (reg : SpecRegistry) : List String → Prop
  | single (n : String) : IsDepPath reg [n]
  | step (a b : String) (rest : List String) :
      b ∈ regDeps reg a → IsDepPath reg (b :: rest) → IsDepPath reg (a :: b :: rest)

/-- Every declared dependency of every registry entry is itself a registry
entry. -/
def RegClosed (reg : SpecRegistry) : Prop :=
  ∀ e ∈ reg, ∀ d ∈ e.2, d ∈ regNames reg

/-- A completion-ordered resolved list: each name's dependencies were
completed strictly earlier (appear in its tail). -/
def TopoOk (reg : SpecRegistry) : List String → Prop
  | [] => True
  | n :: rest => (∀ d ∈ regDeps reg n, d ∈ rest) ∧ TopoOk reg rest

/-! ## Installation transaction

Modelled from the spec: the Installation Orchestrator of §4.4 has no
implementation under src/ (only design documents refer to it).  The model
follows the spec's words for step 3: staged files are written to temp
paths, promoted sequentially by atomic rename; when a rename fails
partway, every already-promoted file is restored to its prior content (or
deleted if it did not previously exist) and every un-promoted temp file is
deleted. -/

structure StagedFile where
  targetPath : String
  content : String
  tempPath : String
  deriving DecidableEq, Repr

/-- A flat filesystem: path ↦ file content. -/
abbrev FlatFs := List (String × String)

def flatLookup (fs : FlatFs) (p : String) : Option String :=
  alookup fs p

def flatInsert (fs : FlatFs) (p : String) (c : String) : FlatFs :=
  (p, c) :: aerase fs p

def flatErase (fs : FlatFs) (p : String) : FlatFs :=
  aerase fs p

/-- Stage every file: write its content at its temp path. -/
def stageAll (fs : FlatFs) (staged : List StagedFile) : FlatFs :=
  staged.foldl (fun a f => flatInsert a f.tempPath f.content) fs

/-- Undo one promoted rename: restore the prior content of the target, or
delete the target if it did not previously exist. -/
def restoreOne (fs : FlatFs) (entry : String × Option String) : FlatFs :=
  match entry.2 with
  | some c => flatInsert fs entry.1 c
  | none => flatErase fs entry.1

/-- Roll back: restore every already-promoted target, then delete every
un-promoted temp file. -/
def rollbackFs (fs : FlatFs) (promoted : List (String × Option String))
    (pending : List StagedFile) : FlatFs :=
  pending.foldl (fun a f => flatErase a f.tempPath) (promoted.foldl restoreOne fs)

/-- Sequential promotion.  `failAt` counts down to the rename forced to
fail; a rename whose temp file is missing fails on its own.  Each
successful rename records the prior content of its target for rollback.
Returns the final filesystem and whether the transaction committed. -/
def promoteFrom (fs : FlatFs) (promoted : List (String × Option String)) :
    List StagedFile → Nat → FlatFs × Bool
  | [], _ => (fs, true)
  | f :: rest, failAt =>
    match failAt, flatLookup fs f.tempPath with
    | 0, _ => (rollbackFs fs promoted (f :: rest), false)
    | _ + 1, none => (rollbackFs fs promoted (f :: rest), false)
    | k + 1, some c =>
      promoteFrom (flatInsert (flatErase fs f.tempPath) f.targetPath c)
        ((f.targetPath, flatLookup fs f.targetPath) :: promoted) rest k

/-- Modelled from the spec: stage all files, then promote them in one
transaction, with the rename numbered `failAt` (0-based) forced to fail. -/
def installPromote (fs : FlatFs) (staged : List StagedFile) (failAt : Nat) :
    FlatFs × Bool :=
  promoteFrom (stageAll fs staged) [] staged failAt

/-! ## CLI error path (`packages/cli/src/cli/index.ts`) -/

/-- A thrown JavaScript value: an `Error` instance carrying a message, or
anything else. -/
inductive JsVal where
  | errVal (message : String)
  | nonErr
  deriving DecidableEq, Repr

inductive LogLevel where
  | info
  | success
  | warn
  | error
  deriving DecidableEq, Repr

/-- What a CLI run leaves behind: the log lines written and the code passed
to `process.exit`, if it was called (`none` means the process ends
normally, which yields exit code 0). -/
structure CliOutcome where
  logs : List (LogLevel × String)
  exited : Option Nat
  deriving DecidableEq, Repr

def messageOf : JsVal → String
  | .errVal m => m
  | .nonErr => "An unknown error occurred"

/-- `CLI.handleError`: log the message (or the unknown-error text) at error
level, then `process.exit(1)`. -/
def handleError (e : JsVal) : CliOutcome :=
  { logs := [(.error, messageOf e)], exited := some 1 }

/-- `CLI.run`: `parseAsync` either succeeds or its thrown value is passed to
`handleError`. -/
def cliRun (parseResult : Except JsVal Unit) : CliOutcome :=
  match parseResult with
  | .ok _ => { logs := [], exited := none }
  | .error e => handleError e

/-- The process exit code an outcome produces. -/
def exitCodeOf (o : CliOutcome) : Nat :=
  o.exited.getD 0

/-! ## Concrete stores used to evaluate the registry endpoints -/

/-- The top-level key list of a JSON object. -/
def topKeys : Json → List String
  | .obj fields => fields.map (fun e => e.1)
  | _ => []

/-- The payload of `test-button@1.0.0` as the integration tests publish it. -/
def pubPayload : Json :=
  .obj [("metadata", .obj [("name", .str "test-button"), ("version", .str "1.0.0")]),
        ("files", .arr [])]

/-- A store holding exactly one published component, laid out as
`FilesystemStorage.write('components/test-button/1.0.0/component.json', …)`
leaves it. -/
def pubStore : FsState Json :=
  ⟨[(["components", "test-button", "1.0.0", "component.json"], pubPayload)],
   [["components"], ["components", "test-button"],
    ["components", "test-button", "1.0.0"]]⟩

def pubPayloadB : Json :=
  .obj [("metadata", .obj [("name", .str "test-input"), ("version", .str "1.0.0")]),
        ("files", .arr [])]

/-- A store holding two published components. -/
def pubStore2 : FsState Json :=
  ⟨[(["components", "test-button", "1.0.0", "component.json"], pubPayload),
    (["components", "test-input", "1.0.0", "component.json"], pubPayloadB)],
   [["components"], ["components", "test-button"],
    ["components", "test-button", "1.0.0"],
    ["components", "test-input"], ["components", "test-input", "1.0.0"]]⟩

/-- A stored payload that passes `ComponentSchema` but carries an unknown
top-level key. -/
def extraPayload : Json :=
  .obj [("metadata", .obj [("name", .str "test-button"), ("version", .str "1.0.0")]),
        ("files", .arr []), ("extra", .bool true)]

def extraStore : FsState Json :=
  ⟨[(["components", "test-button", "1.0.0", "component.json"], extraPayload)],
   [["components"], ["components", "test-button"],
    ["components", "test-button", "1.0.0"]]⟩

/-- What `extraPayload` parses and re-serializes to: the unknown key is
stripped. -/
def strippedPayload : Json :=
  .obj [("metadata", .obj [("name", .str "test-button"), ("version", .str "1.0.0")]),
        ("files", .arr [])]

/-- The spec's cycle example: components A→B→C→A. -/
def cycleReg : SpecRegistry :=
  [("A", ["B"]), ("B", ["C"]), ("C", ["A"])]

/-- The structured form of `pubPayload`. -/
def pubComponent : Component :=
  { metadata :=
      { name := "test-button", version := "1.0.0", description := none,
        author := none, license := none, repository := none,
        dependencies := none, peerDependencies := none, style := none,
        typescript := none, tags := none },
    files := [], readme := none, changelog := none }

end FetchUI

namespace FetchUI

/-! ## Association-list lemmas -/

theorem beqFalseOfNe [BEq κ] [LawfulBEq κ] {a b : κ} (h : a ≠ b) : (a == b) = false := by
  by_cases hb : a == b
  · exact absurd (beq_iff_eq.mp hb) h
  · simpa using hb

theorem alookup_cons [BEq κ] (e : κ × α) (l : List (κ × α)) (k : κ) :
    alookup (e :: l) k = if e.1 == k then some e.2 else alookup l k := by
  by_cases h : e.1 == k <;> simp [alookup, List.find?, h]

theorem aerase_cons [BEq κ] (e : κ × α) (l : List (κ × α)) (k : κ) :
    aerase (e :: l) k = if e.1 == k then aerase l k else e :: aerase l k := by
  by_cases h : e.1 == k <;> simp [aerase, List.filter, h]

theorem alookup_aerase_ne [BEq κ] [LawfulBEq κ] (l : List (κ × α)) {k k' : κ}
    (h : k' ≠ k) : alookup (aerase l k) k' = alookup l k' := by
  induction l with
  | nil => rfl
  | cons e l ih =>
    rw [aerase_cons, alookup_cons]
    by_cases he : e.1 == k
    · have he' : (e.1 == k') = false := by
        refine beqFalseOfNe (fun hk => h ?_)
        exact hk.symm.trans (beq_iff_eq.mp he)
      simp [he, he', ih]
    · rw [if_neg he, alookup_cons]
      by_cases he' : e.1 == k' <;> simp [he', ih]

theorem alookup_aerase_self [BEq κ] [LawfulBEq κ] (l : List (κ × α)) (k : κ) :
    alookup (aerase l k) k = none := by
  induction l with
  | nil => rfl
  | cons e l ih =>
    rw [aerase_cons]
    by_cases he : e.1 == k
    · simp [he, ih]
    · rw [if_neg he, alookup_cons, if_neg he]
      exact ih

theorem alookup_append [BEq κ] (l₁ l₂ : List (κ × α)) (k : κ) :
    alookup (l₁ ++ l₂) k =
      match alookup l₁ k with
      | some v => some v
      | none => alookup l₂ k := by
  induction l₁ with
  | nil => simp [alookup]
  | cons e l ih =>
    rw [List.cons_append, alookup_cons, alookup_cons]
    by_cases he : e.1 == k <;> simp [he, ih]

theorem alookup_write_self [BEq κ] [LawfulBEq κ] (l : List (κ × α)) (k : κ) (v : α) :
    alookup (aerase l k ++ [(k, v)]) k = some v := by
  rw [alookup_append, alookup_aerase_self]
  simp [alookup_cons]

theorem alookup_write_ne [BEq κ] [LawfulBEq κ] (l : List (κ × α)) {k k' : κ} (v : α)
    (h : k' ≠ k) : alookup (aerase l k ++ [(k, v)]) k' = alookup l k' := by
  rw [alookup_append, alookup_aerase_ne l h]
  cases hl : alookup l k' with
  | some w => rfl
  | none => simp [alookup_cons, beqFalseOfNe (fun hk : k = k' => h hk.symm), alookup]

/-! ## Claim theorems -/

/-- Claim C8: whenever a CLI run encounters an unrecovered error, the CLI
logs the error's message (or 'An unknown error occurred' for a non-Error
value) and terminates with exit code 1; exit code 0 arises only from a
successful run. -/
theorem cli_error_exit (r : Except JsVal Unit) :
    (∀ e, r = .error e →
      cliRun r = { logs := [(.error, messageOf e)], exited := some 1 }) ∧
    (exitCodeOf (cliRun r) = 0 ↔ r = .ok ()) := by
  constructor
  · intro e he
    subst he
    rfl
  · cases r with
    | ok u => cases u; simp [cliRun, exitCodeOf]
    | error e => simp [cliRun, exitCodeOf, handleError]

/-- Witness for C8: a run failing with `Error('Test error')` logs the
message at error level and exits with code 1. -/
theorem cli_error_exit_witness :
    cliRun (.error (.errVal "Test error")) =
      { logs := [(.error, "Test error")], exited := some 1 } :=
  (cli_error_exit (.error (.errVal "Test error"))).1 (.errVal "Test error") rfl

/-- Claim C1 (code bug): with one published component `test-button@1.0.0`,
`GET /components/test-button` does not serve the greatest published
version — the recursive, prefix-joined paths returned by
`FilesystemStorage.list` make the controller read a non-existent path, and
the ENOENT surfaces as 500 INTERNAL_ERROR; the component list likewise
reports no latest version because every directory entry is re-prefixed
and its version listing comes back empty. -/
theorem latest_resolution_broken :
    handleGetDetails pubStore "test-button" =
      .err 500 ⟨"INTERNAL_ERROR", "Internal server error"⟩ ∧
    handleList pubStore none none = .okList ⟨[], 0, 1, 10⟩ :=
  ⟨rfl, rfl⟩

/-- Claim C2 (code bug): with two published components and explicit
`page=1`, `pageSize=10`, `GET /components` returns no entries and
`total = 0` instead of one entry per published component with
`total = 2`. -/
theorem paginated_list_empty_despite_published :
    handleList pubStore2 (some 1) (some 10) = .okList ⟨[], 0, 1, 10⟩ :=
  rfl

theorem segLe_refl (p : SegPath) : segLe p p = true := by
  induction p with
  | nil => rfl
  | cons a as ih => simp [segLe, ih]

/-- Claim C3: a component with no published version yields
404 COMPONENT_NOT_FOUND from `GET /components/{name}`, and an absent
version yields 404 VERSION_NOT_FOUND from
`GET /components/{name}/versions/{version}`; neither is reported as any
other failure. -/
theorem missing_component_and_version_404 (store : FsState Json)
    (name version : String) :
    ((∀ q ∈ fsObjects store, segLe ["components", name] q = false) →
      handleGetDetails store name =
        .err 404 ⟨"COMPONENT_NOT_FOUND", "Component not found"⟩) ∧
    (storeRead store ["components", name, version, "component.json"] = none →
      handleGetVersion store name version =
        .err 404 ⟨"VERSION_NOT_FOUND", "Version not found"⟩) := by
  constructor
  · intro hmiss
    have hcont : store.dirs.contains (["components", name] : SegPath) = false := by
      by_cases hc : store.dirs.contains (["components", name] : SegPath) = true
      · exfalso
        obtain ⟨q, hqmem, hqeq⟩ := List.contains_iff_exists_mem_beq.mp hc
        have hqe : (["components", name] : SegPath) = q := beq_iff_eq.mp hqeq
        have hmem : q ∈ fsObjects store := by
          simp only [fsObjects, List.mem_append]
          exact Or.inr hqmem
        have hfalse := hmiss q hmem
        rw [← hqe, segLe_refl] at hfalse
        cases hfalse
      · simpa using hc
    have hdir : dirInFs store ["components", name] = false := by
      unfold dirInFs
      rw [Bool.or_eq_false_iff, Bool.or_eq_false_iff]
      refine ⟨⟨rfl, hcont⟩, ?_⟩
      rw [List.any_eq_false]
      intro q hq
      simp [hmiss q hq]
    have hfile : fileInFs store ["components", name] = false := by
      unfold fileInFs
      rw [List.any_eq_false]
      intro e he
      have hmem : e.1 ∈ fsObjects store := by
        simp only [fsObjects, List.mem_append, List.mem_map]
        exact Or.inl ⟨e, he, rfl⟩
      by_cases hb : e.1 == (["components", name] : SegPath)
      · exfalso
        have heq : e.1 = ["components", name] := beq_iff_eq.mp hb
        have := hmiss e.1 hmem
        rw [heq, segLe_refl] at this
        cases this
      · simpa using hb
    unfold handleGetDetails fsList fsReaddir
    rw [hdir, hfile]
    rfl
  · intro hver
    unfold handleGetVersion
    rw [hver]
    rfl

/-- Witness for C3: on an empty store, both endpoints return their 404s. -/
theorem missing_component_and_version_404_witness :
    handleGetDetails (⟨[], []⟩ : FsState Json) "missing" =
      .err 404 ⟨"COMPONENT_NOT_FOUND", "Component not found"⟩ ∧
    handleGetVersion (⟨[], []⟩ : FsState Json) "missing" "1.0.0" =
      .err 404 ⟨"VERSION_NOT_FOUND", "Version not found"⟩ :=
  ⟨(missing_component_and_version_404 ⟨[], []⟩ "missing" "1.0.0").1
      (by intro q hq; cases hq),
   (missing_component_and_version_404 ⟨[], []⟩ "missing" "1.0.0").2 rfl⟩

theorem mkdirRec_files {fs fs' : FsState α} {d : SegPath}
    (h : mkdirRec fs d = .ok fs') : fs'.files = fs.files := by
  unfold mkdirRec at h
  split at h
  · cases h
  · cases h
    rfl

theorem writeFileRaw_files {fs fs' : FsState α} {p : SegPath} {c : α}
    (h : writeFileRaw fs p c = .ok fs') :
    fs'.files = aerase fs.files p ++ [(p, c)] := by
  unfold writeFileRaw at h
  split at h
  · cases h
  · split at h
    · cases h
      rfl
    · cases h

/-- Claim C4: republishing an already-published (name, version) pair fails
with 409 VERSION_CONFLICT and leaves the store untouched; moreover no
`POST /components` invocation ever changes a stored manifest (the read-only
endpoints return no store at all in this model). -/
theorem publish_conflict_immutable (store : FsState Json) (body : Json)
    (c : Component) (m : Json)
    (hparse : parseComponent body = some c)
    (hstored : storeRead store
      ["components", c.metadata.name, c.metadata.version, "component.json"] =
        some m) :
    handleCreate store body =
      (.err 409 ⟨"VERSION_CONFLICT", "Version already exists"⟩, store) ∧
    (∀ (store' : FsState Json) (body' : Json) (q : SegPath) (m' : Json),
      storeRead store' q = some m' →
      storeRead (handleCreate store' body').2 q = some m') := by
  constructor
  · simp only [handleCreate, hparse, hstored]
    rfl
  · intro store' body' q m' hq
    unfold handleCreate
    split
    · exact hq
    rename_i c' hp
    split
    · exact hq
    rename_i hr
    split
    · exact hq
    rename_i store1 hm
    have hf1 : store1.files = store'.files := mkdirRec_files hm
    split
    · rename_i e hw
      show alookup store1.files q = some m'
      rw [hf1]
      exact hq
    rename_i store2 hw
    have hf2 := writeFileRaw_files hw
    have hqp : q ≠ ["components", c'.metadata.name, c'.metadata.version,
        "component.json"] := by
      intro hqe
      rw [hqe] at hq
      rw [hq] at hr
      cases hr
    show alookup store2.files q = some m'
    rw [hf2, hf1]
    rw [alookup_write_ne store'.files (renderComponent c') hqp]
    exact hq

/-- Witness for C4: republishing `test-button@1.0.0` into `pubStore`
returns 409 VERSION_CONFLICT and the unchanged store. -/
theorem publish_conflict_immutable_witness :
    handleCreate pubStore pubPayload =
      (.err 409 ⟨"VERSION_CONFLICT", "Version already exists"⟩, pubStore) :=
  (publish_conflict_immutable pubStore pubPayload pubComponent pubPayload rfl rfl).1

/-- Claim C5 (amended): a stored payload failing `ComponentSchema`
validation yields 400 VALIDATION_ERROR from
`GET /components/{name}/versions/{version}`; a payload passing validation
is returned with HTTP 200 as its schema-parsed form. -/
theorem getVersion_validation (store : FsState Json) (name version : String)
    (payload : Json)
    (hread : storeRead store ["components", name, version, "component.json"] =
      some payload) :
    (parseComponent payload = none →
      handleGetVersion store name version =
        .err 400 ⟨"VALIDATION_ERROR", "Invalid request data"⟩) ∧
    (∀ c, parseComponent payload = some c →
      handleGetVersion store name version = .okJson (renderComponent c)) := by
  constructor
  · intro h
    simp only [handleGetVersion, hread, h]
    rfl
  · intro c h
    simp only [handleGetVersion, hread, h]

/-- Witness for C5's amended claim: the valid stored payload of
`test-button@1.0.0` is served with 200 as its parsed form. -/
theorem getVersion_validation_witness :
    handleGetVersion pubStore "test-button" "1.0.0" = .okJson pubPayload :=
  (getVersion_validation pubStore "test-button" "1.0.0" pubPayload rfl).2
    pubComponent rfl

/-- Counterexample for C5 as stated: a payload that passes schema
validation but carries an unknown top-level key is not returned unchanged —
the response is its stripped, schema-parsed form. -/
theorem getVersion_not_unchanged :
    handleGetVersion extraStore "test-button" "1.0.0" = .okJson strippedPayload ∧
    strippedPayload ≠ extraPayload := by
  refine ⟨rfl, fun h => ?_⟩
  exact absurd (congrArg topKeys h) (by decide)

theorem segLe_iff_append {p q : SegPath} : segLe p q = true ↔ ∃ r, q = p ++ r := by
  induction p generalizing q with
  | nil => simp [segLe]
  | cons a as ih =>
    cases q with
    | nil => simp [segLe]
    | cons b bs =>
      rw [segLe, Bool.and_eq_true]
      constructor
      · rintro ⟨hab, h⟩
        obtain ⟨r, hr⟩ := ih.mp h
        refine ⟨r, ?_⟩
        rw [beq_iff_eq.mp hab, hr]
        rfl
      · rintro ⟨r, hr⟩
        injection hr with h1 h2
        exact ⟨by simp [h1], ih.mpr ⟨r, h2⟩⟩

theorem contains_iff_memKey [BEq κ] [LawfulBEq κ] {l : List κ} {a : κ} :
    l.contains a = true ↔ a ∈ l := by
  rw [List.contains_iff_exists_mem_beq]
  constructor
  · rintro ⟨b, hb, hab⟩
    rw [beq_iff_eq.mp hab]
    exact hb
  · intro h
    exact ⟨a, h, by simp⟩

theorem mem_dedupAcc [BEq κ] [LawfulBEq κ] (l : List κ) :
    ∀ (seen : List κ) (x : κ), x ∈ dedupAcc seen l ↔ x ∈ l ∧ x ∉ seen := by
  induction l with
  | nil => intro seen x; simp [dedupAcc]
  | cons y ys ih =>
    intro seen x
    by_cases hy : y ∈ seen
    · have hcy : seen.contains y = true := contains_iff_memKey.mpr hy
      have hstep : dedupAcc seen (y :: ys) = dedupAcc seen ys := by
        simp only [dedupAcc]
        rw [if_pos hcy]
      rw [hstep, ih seen x]
      constructor
      · rintro ⟨h1, h2⟩
        exact ⟨List.mem_cons_of_mem y h1, h2⟩
      · rintro ⟨h1, h2⟩
        rcases List.mem_cons.mp h1 with he | hm
        · exact absurd (he ▸ hy) h2
        · exact ⟨hm, h2⟩
    · have hcy : ¬ seen.contains y = true := fun hc =>
        absurd (contains_iff_memKey.mp hc) hy
      have hstep : dedupAcc seen (y :: ys) = y :: dedupAcc (y :: seen) ys := by
        simp only [dedupAcc]
        rw [if_neg hcy]
      rw [hstep]
      simp only [List.mem_cons, ih]
      constructor
      · rintro (he | ⟨h1, h2⟩)
        · exact ⟨Or.inl he, he ▸ hy⟩
        · refine ⟨Or.inr h1, fun hs => h2 (Or.inr hs)⟩
      · rintro ⟨h1, h2⟩
        rcases h1 with he | hm
        · exact Or.inl he
        · by_cases hxy : x = y
          · exact Or.inl hxy
          · refine Or.inr ⟨hm, fun hs => ?_⟩
            rcases hs with h | h
            exacts [hxy h, h2 h]

theorem mem_dedupFirst [BEq κ] [LawfulBEq κ] {l : List κ} {x : κ} :
    x ∈ dedupFirst l ↔ x ∈ l := by
  rw [dedupFirst, mem_dedupAcc]
  simp

theorem mem_relCuts {rest r : SegPath} :
    r ∈ relCuts rest ↔ ∃ k, k < rest.length ∧ r = rest.take (k + 1) := by
  simp only [relCuts, List.mem_map, List.mem_range]
  constructor
  · rintro ⟨k, hk, hr⟩
    exact ⟨k, hk, hr.symm⟩
  · rintro ⟨k, hk, hr⟩
    exact ⟨k, hk, hr.symm⟩

/-- Claim C9: `FilesystemStorage.list` returns the empty list for a
non-existent prefix (the ENOENT is swallowed), propagates any other
filesystem error, and for an existing prefix returns exactly the entries
under the prefix — directories as well as files — each prefixed with the
given prefix. -/
theorem storage_list_spec (fs : FsState α) (pfx : SegPath) :
    (dirInFs fs pfx = false → fileInFs fs pfx = false → fsList fs pfx = .ok []) ∧
    (dirInFs fs pfx = false → fileInFs fs pfx = true →
      fsList fs pfx = .error .enotdir) ∧
    (dirInFs fs pfx = true →
      ∃ es, fsList fs pfx = .ok es ∧
        ∀ q, q ∈ es ↔ (segLe pfx q = true ∧ pfx.length < q.length ∧
          ∃ full ∈ fsObjects fs, segLe q full = true)) := by
  refine ⟨?_, ?_, ?_⟩
  · intro hdir hfile
    unfold fsList fsReaddir
    rw [hdir, hfile]
    rfl
  · intro hdir hfile
    unfold fsList fsReaddir
    rw [hdir, hfile]
    rfl
  · intro hdir
    refine ⟨(belowEntries fs pfx).map (fun e => pfx ++ e), ?_, ?_⟩
    · unfold fsList fsReaddir
      rw [hdir]
      rfl
    · intro q
      rw [List.mem_map]
      constructor
      · rintro ⟨r, hr, hq⟩
        rw [belowEntries, mem_dedupFirst, List.mem_flatMap] at hr
        obtain ⟨full, hfull, hcut⟩ := hr
        rw [List.mem_filter, Bool.and_eq_true, decide_eq_true_iff] at hfull
        obtain ⟨hfmem, hfle, hflen⟩ := hfull
        obtain ⟨k, hk, hrk⟩ := mem_relCuts.mp hcut
        obtain ⟨s, hs⟩ := segLe_iff_append.mp hfle
        have hrest : full.drop pfx.length = s := by
          rw [hs, List.drop_left]
        rw [hrest] at hrk hk
        refine ⟨?_, ?_, full, hfmem, ?_⟩
        · exact segLe_iff_append.mpr ⟨r, hq.symm⟩
        · rw [← hq, List.length_append, hrk, List.length_take]
          omega
        · refine segLe_iff_append.mpr ⟨s.drop (k + 1), ?_⟩
          rw [hs, ← hq, hrk, List.append_assoc, List.take_append_drop]
      · rintro ⟨hple, hlen, full, hfmem, hqf⟩
        obtain ⟨r, hr⟩ := segLe_iff_append.mp hple
        obtain ⟨s, hs⟩ := segLe_iff_append.mp hqf
        have hrlen : 1 ≤ r.length := by
          rw [hr, List.length_append] at hlen
          omega
        refine ⟨r, ?_, hr.symm⟩
        rw [belowEntries, mem_dedupFirst, List.mem_flatMap]
        refine ⟨full, ?_, ?_⟩
        · rw [List.mem_filter, Bool.and_eq_true, decide_eq_true_iff]
          refine ⟨hfmem, segLe_iff_append.mpr ⟨r ++ s, ?_⟩, ?_⟩
          · rw [hs, hr, List.append_assoc]
          · rw [hs, hr, List.length_append, List.length_append]
            omega
        · rw [mem_relCuts]
          refine ⟨r.length - 1, ?_, ?_⟩
          · have : full.drop pfx.length = r ++ s := by
              rw [hs, hr, List.append_assoc, List.drop_left]
            rw [this, List.length_append]
            omega
          · have hd : full.drop pfx.length = r ++ s := by
              rw [hs, hr, List.append_assoc, List.drop_left]
            rw [hd, show r.length - 1 + 1 = r.length from by omega, List.take_left]

/-- Witness for C9: listing a missing prefix on a small store yields the
empty list, and listing an existing prefix yields its entries. -/
theorem storage_list_spec_witness :
    fsList (⟨[(["components", "button", "index.ts"], "x")],
        [["components"], ["components", "button"]]⟩ : FsState String)
      ["missing"] = .ok [] :=
  (storage_list_spec _ _).1 rfl rfl

/-- Claim C10: `FilesystemStorage.write` creates every missing parent
directory of the target path and then writes the file, and a subsequent
`read` of the same path returns exactly the written content; other files
are untouched. -/
theorem storage_write_read_roundtrip (fs : FsState α) (p : SegPath) (c : α)
    (hne : p ≠ [])
    (hnofile : ∀ q ∈ relCuts p.dropLast, fileInFs fs q = false)
    (hnodirPost : dirInFs fs p = false) :
    (∃ fs', fsWrite fs p c = .ok fs') ∧
    (∀ fs', fsWrite fs p c = .ok fs' →
      fsRead fs' p = .ok c ∧
      (∀ d ∈ relCuts p.dropLast, dirInFs fs' d = true) ∧
      (∀ q, q ≠ p → storeRead fs' q = storeRead fs q)) := by
  have hmk : mkdirRec fs p.dropLast =
      .ok ⟨fs.files, fs.dirs ++
        ((relCuts p.dropLast).filter (fun q => !fs.dirs.contains q))⟩ := by
    unfold mkdirRec
    rw [if_neg]
    intro hany
    rw [List.any_eq_true] at hany
    obtain ⟨q, hq, hfq⟩ := hany
    rw [hnofile q hq] at hfq
    cases hfq
  have hcuts : ∀ d ∈ relCuts p.dropLast,
      (fs.dirs ++ ((relCuts p.dropLast).filter
        (fun q => !fs.dirs.contains q))).contains d = true := by
    intro d hd
    by_cases hdin : fs.dirs.contains d = true
    · rw [contains_iff_memKey] at hdin ⊢
      exact List.mem_append_left _ hdin
    · have hdf : fs.dirs.contains d = false := by
        cases hb : fs.dirs.contains d
        · rfl
        · exact absurd hb hdin
      rw [contains_iff_memKey]
      refine List.mem_append_right _ ?_
      rw [List.mem_filter]
      refine ⟨hd, ?_⟩
      rw [hdf]
      rfl
  have hcutlen : ∀ d ∈ relCuts p.dropLast, d.length < p.length := by
    intro d hd
    obtain ⟨k, hk, hdk⟩ := mem_relCuts.mp hd
    have hplen : p.dropLast.length = p.length - 1 := List.length_dropLast p
    rw [hdk, List.length_take]
    have hp1 : 1 ≤ p.length := by
      cases p with
      | nil => exact absurd rfl hne
      | cons a as => simp
    omega
  have hdirPost : dirInFs (⟨fs.files, fs.dirs ++
      ((relCuts p.dropLast).filter (fun q => !fs.dirs.contains q))⟩ : FsState α)
      p = false := by
    unfold dirInFs at hnodirPost ⊢
    simp only [Bool.or_eq_false_iff] at hnodirPost ⊢
    obtain ⟨⟨hni, hnc⟩, hna⟩ := hnodirPost
    refine ⟨⟨hni, ?_⟩, ?_⟩
    · by_cases hc : (fs.dirs ++ ((relCuts p.dropLast).filter
          (fun q => !fs.dirs.contains q))).contains p = true
      · exfalso
        rw [contains_iff_memKey, List.mem_append] at hc
        rcases hc with hc | hc
        · rw [← contains_iff_memKey] at hc
          rw [hnc] at hc
          cases hc
        · rw [List.mem_filter] at hc
          have := hcutlen p hc.1
          omega
      · simpa using hc
    · rw [List.any_eq_false]
      intro q hq
      simp only [fsObjects, List.mem_append] at hq
      rcases hq with hq | hq
      · have : q ∈ fsObjects fs := by
          simp only [fsObjects, List.mem_append]
          exact Or.inl hq
        rw [List.any_eq_false] at hna
        exact hna q this
      · rcases hq with hq | hq
        · have : q ∈ fsObjects fs := by
            simp only [fsObjects, List.mem_append]
            exact Or.inr hq
          rw [List.any_eq_false] at hna
          exact hna q this
        · rw [List.mem_filter] at hq
          have hlt := hcutlen q hq.1
          simp only [Bool.and_eq_true, decide_eq_true_iff, not_and]
          intro hle
          omega
  have hparent : (p.dropLast.isEmpty || dirInFs (⟨fs.files, fs.dirs ++
      ((relCuts p.dropLast).filter (fun q => !fs.dirs.contains q))⟩ : FsState α)
      p.dropLast) = true := by
    cases hdl : p.dropLast with
    | nil => rfl
    | cons a as =>
      rw [Bool.or_eq_true]
      refine Or.inr ?_
      unfold dirInFs
      rw [Bool.or_eq_true, Bool.or_eq_true]
      refine Or.inl (Or.inr ?_)
      rw [← hdl]
      refine hcuts p.dropLast ?_
      rw [mem_relCuts]
      refine ⟨p.dropLast.length - 1, ?_, ?_⟩
      · rw [hdl]
        simp
      · have : 1 ≤ p.dropLast.length := by
          rw [hdl]
          simp
        rw [show p.dropLast.length - 1 + 1 = p.dropLast.length from by omega,
          List.take_length]
  have hwrite : fsWrite fs p c =
      .ok ⟨aerase fs.files p ++ [(p, c)], fs.dirs ++
        ((relCuts p.dropLast).filter (fun q => !fs.dirs.contains q))⟩ := by
    unfold fsWrite
    rw [hmk]
    show writeFileRaw _ p c = _
    unfold writeFileRaw
    rw [if_neg (by rw [hdirPost]; exact fun h => absurd h (by simp)), if_pos hparent]
  refine ⟨⟨_, hwrite⟩, ?_⟩
  intro fs' hfs'
  rw [hwrite] at hfs'
  injection hfs' with hfs'
  subst hfs'
  refine ⟨?_, ?_, ?_⟩
  · unfold fsRead storeRead
    rw [alookup_write_self]
  · intro d hd
    unfold dirInFs
    rw [Bool.or_eq_true, Bool.or_eq_true]
    exact Or.inl (Or.inr (hcuts d hd))
  · intro q hq
    unfold storeRead
    exact alookup_write_ne fs.files c hq

/-- Witness for C10: writing `a/b/c.txt` into an empty tree creates the
directories `a` and `a/b` and reading the path back returns the written
content. -/
theorem storage_write_read_roundtrip_witness :
    ∃ fs', fsWrite (⟨[], []⟩ : FsState String) ["a", "b", "c.txt"] "hi" = .ok fs' :=
  (storage_write_read_roundtrip (⟨[], []⟩ : FsState String) ["a", "b", "c.txt"] "hi"
    (by decide) (by decide) rfl).1

/-! ## Flat-filesystem lemmas for the install transaction (C7) -/

theorem flatLookup_insert_self (fs : FlatFs) (p c : String) :
    flatLookup (flatInsert fs p c) p = some c := by
  simp [flatLookup, flatInsert, alookup_cons]

theorem flatLookup_insert_ne (fs : FlatFs) {p x : String} (c : String) (h : x ≠ p) :
    flatLookup (flatInsert fs p c) x = flatLookup fs x := by
  rw [flatLookup, flatInsert, alookup_cons,
    if_neg (fun hc => absurd (beq_iff_eq.mp hc) (fun he => h he.symm))]
  exact alookup_aerase_ne fs h

theorem flatLookup_erase_self (fs : FlatFs) (p : String) :
    flatLookup (flatErase fs p) p = none :=
  alookup_aerase_self fs p

theorem flatLookup_erase_ne (fs : FlatFs) {p x : String} (h : x ≠ p) :
    flatLookup (flatErase fs p) x = flatLookup fs x :=
  alookup_aerase_ne fs h

theorem restoreOne_lookup_ne (fs : FlatFs) (e : String × Option String) {x : String}
    (h : x ≠ e.1) : flatLookup (restoreOne fs e) x = flatLookup fs x := by
  cases e with
  | mk t prior =>
    cases prior with
    | some c => exact flatLookup_insert_ne fs c h
    | none => exact flatLookup_erase_ne fs h

theorem restoreOne_lookup_self (fs : FlatFs) (e : String × Option String) :
    flatLookup (restoreOne fs e) e.1 = e.2 := by
  cases e with
  | mk t prior =>
    cases prior with
    | some c => exact flatLookup_insert_self fs t c
    | none => exact flatLookup_erase_self fs t

theorem restoreOne_cong {a b : FlatFs} (e : String × Option String)
    (h : ∀ x, flatLookup a x = flatLookup b x) :
    ∀ x, flatLookup (restoreOne a e) x = flatLookup (restoreOne b e) x := by
  intro x
  by_cases hx : x = e.1
  · rw [hx, restoreOne_lookup_self, restoreOne_lookup_self]
  · rw [restoreOne_lookup_ne a e hx, restoreOne_lookup_ne b e hx]
    exact h x

theorem restoreFold_cong (ps : List (String × Option String)) :
    ∀ {a b : FlatFs}, (∀ x, flatLookup a x = flatLookup b x) →
      ∀ x, flatLookup (ps.foldl restoreOne a) x = flatLookup (ps.foldl restoreOne b) x := by
  induction ps with
  | nil => intro a b h x; exact h x
  | cons e ps ih =>
    intro a b h x
    exact ih (restoreOne_cong e h) x

theorem restoreFold_lookup_ne (ps : List (String × Option String)) :
    ∀ (fs : FlatFs) {x : String}, (∀ e ∈ ps, x ≠ e.1) →
      flatLookup (ps.foldl restoreOne fs) x = flatLookup fs x := by
  induction ps with
  | nil => intro fs x _; rfl
  | cons e ps ih =>
    intro fs x h
    rw [List.foldl_cons, ih _ (fun e' he' => h e' (List.mem_cons_of_mem e he'))]
    exact restoreOne_lookup_ne fs e (h e (List.mem_cons_self e ps))

theorem erase_restoreFold_comm (ps : List (String × Option String)) :
    ∀ (fs : FlatFs) {p : String}, (∀ e ∈ ps, p ≠ e.1) →
      ∀ x, flatLookup (ps.foldl restoreOne (flatErase fs p)) x =
        flatLookup (flatErase (ps.foldl restoreOne fs) p) x := by
  induction ps with
  | nil => intro fs p _ x; rfl
  | cons e ps ih =>
    intro fs p h x
    rw [List.foldl_cons, List.foldl_cons]
    have hstep : ∀ y, flatLookup (restoreOne (flatErase fs p) e) y =
        flatLookup (flatErase (restoreOne fs e) p) y := by
      intro y
      by_cases hyp : y = p
      · rw [hyp, restoreOne_lookup_ne _ e (h e (List.mem_cons_self e ps)),
          flatLookup_erase_self, flatLookup_erase_self]
      · by_cases hye : y = e.1
        · have hep : e.1 ≠ p := hye ▸ hyp
          rw [hye, restoreOne_lookup_self, flatLookup_erase_ne _ hep,
            restoreOne_lookup_self]
        · rw [restoreOne_lookup_ne _ e hye, flatLookup_erase_ne _ hyp,
            flatLookup_erase_ne _ hyp, restoreOne_lookup_ne _ e hye]
    calc flatLookup ((ps.foldl restoreOne) (restoreOne (flatErase fs p) e)) x
        = flatLookup ((ps.foldl restoreOne) (flatErase (restoreOne fs e) p)) x :=
          restoreFold_cong ps hstep x
      _ = flatLookup (flatErase (ps.foldl restoreOne (restoreOne fs e)) p) x :=
          ih (restoreOne fs e) (fun e' he' => h e' (List.mem_cons_of_mem e he')) x

theorem eraseFold_cong (l : List StagedFile) :
    ∀ {a b : FlatFs}, (∀ x, flatLookup a x = flatLookup b x) →
      ∀ x, flatLookup (l.foldl (fun a f => flatErase a f.tempPath) a) x =
        flatLookup (l.foldl (fun a f => flatErase a f.tempPath) b) x := by
  induction l with
  | nil => intro a b h x; exact h x
  | cons f l ih =>
    intro a b h x
    rw [List.foldl_cons, List.foldl_cons]
    refine ih (fun y => ?_) x
    by_cases hy : y = f.tempPath
    · subst hy
      rw [flatLookup_erase_self, flatLookup_erase_self]
    · rw [flatLookup_erase_ne _ hy, flatLookup_erase_ne _ hy]
      exact h y

theorem eraseFold_notmem (l : List StagedFile) :
    ∀ (fs : FlatFs) {x : String}, (∀ g ∈ l, x ≠ g.tempPath) →
      flatLookup (l.foldl (fun a f => flatErase a f.tempPath) fs) x = flatLookup fs x := by
  induction l with
  | nil => intro fs x _; rfl
  | cons f l ih =>
    intro fs x h
    rw [List.foldl_cons, ih _ (fun g hg => h g (List.mem_cons_of_mem f hg))]
    exact flatLookup_erase_ne fs (h f (List.mem_cons_self f l))

theorem eraseFold_none (l : List StagedFile) :
    ∀ (fs : FlatFs) {x : String}, flatLookup fs x = none →
      flatLookup (l.foldl (fun a f => flatErase a f.tempPath) fs) x = none := by
  induction l with
  | nil => intro fs x h; exact h
  | cons f l ih =>
    intro fs x h
    rw [List.foldl_cons]
    refine ih _ ?_
    by_cases hx : x = f.tempPath
    · rw [hx]
      exact flatLookup_erase_self fs f.tempPath
    · rw [flatLookup_erase_ne fs hx]
      exact h

theorem eraseFold_mem (l : List StagedFile) :
    ∀ (fs : FlatFs) {x : String}, (∃ g ∈ l, x = g.tempPath) →
      flatLookup (l.foldl (fun a f => flatErase a f.tempPath) fs) x = none := by
  induction l with
  | nil => intro fs x h; obtain ⟨g, hg, _⟩ := h; cases hg
  | cons f l ih =>
    intro fs x h
    obtain ⟨g, hg, hx⟩ := h
    rcases List.mem_cons.mp hg with he | hm
    · subst he
      rw [List.foldl_cons]
      refine eraseFold_none l _ ?_
      rw [hx]
      exact flatLookup_erase_self fs g.tempPath
    · rw [List.foldl_cons]
      exact ih _ ⟨g, hm, hx⟩

theorem stageFold_notmem (l : List StagedFile) :
    ∀ (fs : FlatFs) {x : String}, (∀ g ∈ l, x ≠ g.tempPath) →
      flatLookup (stageAll fs l) x = flatLookup fs x := by
  induction l with
  | nil => intro fs x _; rfl
  | cons f l ih =>
    intro fs x h
    rw [stageAll, List.foldl_cons]
    rw [show l.foldl (fun a f => flatInsert a f.tempPath f.content)
        (flatInsert fs f.tempPath f.content) =
      stageAll (flatInsert fs f.tempPath f.content) l from rfl]
    rw [ih _ (fun g hg => h g (List.mem_cons_of_mem f hg))]
    exact flatLookup_insert_ne fs f.content (h f (List.mem_cons_self f l))

theorem stageAll_mem (l : List StagedFile) :
    ∀ (fs : FlatFs), (l.map (fun f => f.tempPath)).Nodup →
      ∀ g ∈ l, flatLookup (stageAll fs l) g.tempPath = some g.content := by
  induction l with
  | nil => intro fs _ g hg; cases hg
  | cons f l ih =>
    intro fs hnodup g hg
    rw [List.map_cons, List.nodup_cons] at hnodup
    have hnodup' := hnodup
    rcases List.mem_cons.mp hg with he | hm
    · subst he
      rw [stageAll, List.foldl_cons]
      rw [show l.foldl (fun a f => flatInsert a f.tempPath f.content)
          (flatInsert fs g.tempPath g.content) =
        stageAll (flatInsert fs g.tempPath g.content) l from rfl]
      rw [stageFold_notmem l _ (fun g' hg' hx => hnodup'.1 (by
        rw [hx]
        exact List.mem_map_of_mem _ hg'))]
      exact flatLookup_insert_self fs g.tempPath g.content
    · rw [stageAll, List.foldl_cons]
      exact ih _ hnodup'.2 g hm

/-- The inductive core of C7: if the current state rolls back to the
pre-install state, promotion that fails anywhere in the remaining files
ends rolled back to the pre-install state. -/
theorem promoteFrom_rollback (fs0 : FlatFs) :
    ∀ (pending : List StagedFile) (fs : FlatFs)
      (promoted : List (String × Option String)) (failAt : Nat),
      failAt < pending.length →
      (∀ g ∈ pending, flatLookup fs g.tempPath = some g.content) →
      (∀ x, flatLookup (rollbackFs fs promoted pending) x = flatLookup fs0 x) →
      (pending.map (fun f => f.tempPath)).Nodup →
      (∀ g ∈ pending, ∀ e ∈ promoted, g.tempPath ≠ e.1) →
      (∀ g ∈ pending, ∀ h ∈ pending, g.tempPath ≠ h.targetPath) →
      (promoteFrom fs promoted pending failAt).2 = false ∧
      (∀ x, flatLookup (promoteFrom fs promoted pending failAt).1 x =
        flatLookup fs0 x) := by
  intro pending
  induction pending with
  | nil =>
    intro fs promoted failAt hfail _ _ _ _ _
    exact absurd hfail (by simp)
  | cons f rest ih =>
    intro fs promoted failAt hfail htemps hroll hnodup hprom hdisj
    cases failAt with
    | zero => exact ⟨rfl, hroll⟩
    | succ k =>
      have hlook : flatLookup fs f.tempPath = some f.content :=
        htemps f (List.mem_cons_self f rest)
      have hred : promoteFrom fs promoted (f :: rest) (k + 1) =
          promoteFrom (flatInsert (flatErase fs f.tempPath) f.targetPath f.content)
            ((f.targetPath, flatLookup fs f.targetPath) :: promoted) rest k := by
        simp only [promoteFrom, hlook]
      rw [hred]
      rw [List.map_cons, List.nodup_cons] at hnodup
      have hnodup' := hnodup
      have htt : f.tempPath ≠ f.targetPath :=
        hdisj f (List.mem_cons_self f rest) f (List.mem_cons_self f rest)
      refine ih _ _ k (by simpa using Nat.lt_of_succ_lt_succ (by simpa using hfail))
        ?_ ?_ hnodup'.2 ?_ ?_
      · intro g hg
        have hgt : g.tempPath ≠ f.targetPath :=
          hdisj g (List.mem_cons_of_mem f hg) f (List.mem_cons_self f rest)
        have hgtemp : g.tempPath ≠ f.tempPath := fun hx =>
          hnodup'.1 (hx ▸ List.mem_map_of_mem _ hg)
        rw [flatLookup_insert_ne _ f.content hgt, flatLookup_erase_ne _ hgtemp]
        exact htemps g (List.mem_cons_of_mem f hg)
      · intro x
        have hA : ∀ y, flatLookup (restoreOne
            (flatInsert (flatErase fs f.tempPath) f.targetPath f.content)
            (f.targetPath, flatLookup fs f.targetPath)) y =
            flatLookup (flatErase fs f.tempPath) y := by
          intro y
          by_cases hy : y = f.targetPath
          · rw [hy, restoreOne_lookup_self,
              flatLookup_erase_ne fs (fun hx => htt hx.symm)]
          · rw [restoreOne_lookup_ne _ _ hy, flatLookup_insert_ne _ f.content hy]
        have hcomm : ∀ e ∈ promoted, f.tempPath ≠ e.1 :=
          hprom f (List.mem_cons_self f rest)
        have hchain : ∀ y,
            flatLookup (promoted.foldl restoreOne (restoreOne
              (flatInsert (flatErase fs f.tempPath) f.targetPath f.content)
              (f.targetPath, flatLookup fs f.targetPath))) y =
            flatLookup (flatErase (promoted.foldl restoreOne fs) f.tempPath) y := by
          intro y
          calc flatLookup (promoted.foldl restoreOne (restoreOne
                (flatInsert (flatErase fs f.tempPath) f.targetPath f.content)
                (f.targetPath, flatLookup fs f.targetPath))) y
              = flatLookup (promoted.foldl restoreOne (flatErase fs f.tempPath)) y :=
                restoreFold_cong promoted hA y
            _ = flatLookup (flatErase (promoted.foldl restoreOne fs) f.tempPath) y :=
                erase_restoreFold_comm promoted fs hcomm y
        calc flatLookup (rollbackFs
              (flatInsert (flatErase fs f.tempPath) f.targetPath f.content)
              ((f.targetPath, flatLookup fs f.targetPath) :: promoted) rest) x
            = flatLookup (rest.foldl (fun a f => flatErase a f.tempPath)
                (flatErase (promoted.foldl restoreOne fs) f.tempPath)) x := by
              rw [rollbackFs, List.foldl_cons]
              exact eraseFold_cong rest hchain x
          _ = flatLookup (rollbackFs fs promoted (f :: rest)) x := by
              rw [rollbackFs, List.foldl_cons]
          _ = flatLookup fs0 x := hroll x
      · intro g hg e he
        rcases List.mem_cons.mp he with hh | hh
        · subst hh
          exact hdisj g (List.mem_cons_of_mem f hg) f (List.mem_cons_self f rest)
        · exact hprom g (List.mem_cons_of_mem f hg) e hh
      · intro g hg h hh
        exact hdisj g (List.mem_cons_of_mem f hg) h (List.mem_cons_of_mem f hh)

/-- Claim C7: when promotion of a staged file fails partway through an
install transaction, after rollback every target path holds exactly its
pre-install content, every temp file is gone, and in fact the whole
filesystem equals its pre-install state; the transaction reports failure. -/
theorem install_rollback_atomic (fs0 : FlatFs) (staged : List StagedFile)
    (failAt : Nat)
    (hfail : failAt < staged.length)
    (htempsN : (staged.map (fun f => f.tempPath)).Nodup)
    (hdisj : ∀ g ∈ staged, ∀ h ∈ staged, g.tempPath ≠ h.targetPath)
    (hfresh : ∀ g ∈ staged, flatLookup fs0 g.tempPath = none) :
    (installPromote fs0 staged failAt).2 = false ∧
    (∀ h ∈ staged, flatLookup (installPromote fs0 staged failAt).1 h.targetPath =
      flatLookup fs0 h.targetPath) ∧
    (∀ g ∈ staged, flatLookup (installPromote fs0 staged failAt).1 g.tempPath = none) ∧
    (∀ x, flatLookup (installPromote fs0 staged failAt).1 x = flatLookup fs0 x) := by
  have hstage : ∀ g ∈ staged, flatLookup (stageAll fs0 staged) g.tempPath =
      some g.content := stageAll_mem staged fs0 htempsN
  have hroll0 : ∀ x, flatLookup (rollbackFs (stageAll fs0 staged) [] staged) x =
      flatLookup fs0 x := by
    intro x
    rw [rollbackFs]
    by_cases hx : ∃ g ∈ staged, x = g.tempPath
    · rw [eraseFold_mem staged _ hx]
      obtain ⟨g, hg, hxg⟩ := hx
      rw [hxg, hfresh g hg]
    · push_neg at hx
      rw [eraseFold_notmem staged _ hx]
      exact stageFold_notmem staged fs0 hx
  have hmain := promoteFrom_rollback fs0 staged (stageAll fs0 staged) [] failAt
    hfail hstage hroll0 htempsN (fun g _ e he => absurd he (List.not_mem_nil e)) hdisj
  refine ⟨hmain.1, ?_, ?_, hmain.2⟩
  · intro h _
    exact hmain.2 h.targetPath
  · intro g hg
    exact (hmain.2 g.tempPath).trans (hfresh g hg)

/-! ## Resolver lemmas (C6) -/

theorem exceptMap_ok {ε α β : Type} {f : α → β} {x : Except ε α} {b : β}
    (h : x.map f = .ok b) : ∃ a, x = .ok a ∧ b = f a := by
  cases x with
  | ok a =>
    refine ⟨a, rfl, ?_⟩
    simp [Except.map] at h
    exact h.symm
  | error e => simp [Except.map] at h

theorem exceptMap_error {ε α β : Type} {f : α → β} {x : Except ε α} {e : ε}
    (h : x.map f = .error e) : x = .error e := by
  cases x with
  | ok a => simp [Except.map] at h
  | error e' =>
    simp [Except.map] at h
    rw [h]

theorem foldlM_error {α β ε : Type} (f : β → α → Except ε β) :
    ∀ (l : List α) (acc : β) (e : ε),
      l.foldlM f acc = .error e → ∃ a ∈ l, ∃ acc', f acc' a = .error e := by
  intro l
  induction l with
  | nil =>
    intro acc e h
    rw [List.foldlM_nil] at h
    cases h
  | cons a l ih =>
    intro acc e h
    rw [List.foldlM_cons] at h
    cases hf : f acc a with
    | error e' =>
      rw [hf, show ((Except.error e' : Except ε β) >>= fun b => l.foldlM f b) =
        .error e' from rfl] at h
      injection h with he
      exact ⟨a, List.mem_cons_self a l, acc, by rw [hf, he]⟩
    | ok b =>
      rw [hf, show ((Except.ok b : Except ε β) >>= fun b => l.foldlM f b) =
        l.foldlM f b from rfl] at h
      obtain ⟨a', ha', acc', hacc'⟩ := ih b e h
      exact ⟨a', List.mem_cons_of_mem a ha', acc', hacc'⟩

theorem regLookup_mem {reg : SpecRegistry} {n : String} {ds : List String}
    (h : regLookup reg n = some ds) : (n, ds) ∈ reg := by
  rw [regLookup] at h
  cases hf : reg.find? (fun e => e.1 == n) with
  | none =>
    rw [hf] at h
    cases h
  | some e =>
    rw [hf] at h
    have he : e ∈ reg := List.mem_of_find?_eq_some hf
    have hp := List.find?_some hf
    have h1 : e.1 = n := beq_iff_eq.mp hp
    injection h with h2
    rw [← h1, ← h2]
    exact he

theorem regLookup_none {reg : SpecRegistry} {n : String}
    (h : regLookup reg n = none) : n ∉ regNames reg := by
  intro hn
  rw [regLookup] at h
  cases hf : reg.find? (fun e => e.1 == n) with
  | some e =>
    rw [hf] at h
    simp at h
  | none =>
    rw [List.find?_eq_none] at hf
    rw [regNames, List.mem_map] at hn
    obtain ⟨e, he, hen⟩ := hn
    refine hf e he ?_
    rw [hen]
    simp

theorem depPath_extend {reg : SpecRegistry} :
    ∀ (xs : List String) (a b : String), IsDepPath reg (xs ++ [a]) →
      b ∈ regDeps reg a → IsDepPath reg (xs ++ [a, b]) := by
  intro xs
  induction xs with
  | nil =>
    intro a b _ hb
    exact .step a b [] hb (.single b)
  | cons x xs ih =>
    intro a b hp hb
    obtain ⟨y, ys, hys⟩ : ∃ y ys, xs ++ [a] = y :: ys := by
      cases hxs : xs ++ [a] with
      | nil => cases xs <;> simp at hxs
      | cons y ys => exact ⟨y, ys, rfl⟩
    rw [List.cons_append, hys] at hp
    cases hp with
    | step a' b' rest hb' hrest =>
      have hsub : IsDepPath reg (xs ++ [a, b]) := by
        refine ih a b ?_ hb
        rw [hys]
        exact hrest
      have hshape : xs ++ [a, b] = y :: (ys ++ [b]) := by
        rw [show ([a, b] : List String) = [a] ++ [b] from rfl, ← List.append_assoc,
          hys]
        rfl
      rw [List.cons_append, hshape]
      refine .step x y (ys ++ [b]) hb' ?_
      rw [← hshape]
      exact hsub

/-- Witness for C7: five staged files, promotion forced to fail on the
third; the transaction reports failure and the filesystem is byte-for-byte
the pre-install one. -/
theorem install_rollback_atomic_witness :
    (installPromote [("t1", "old1")]
      [⟨"t1", "n1", "tmp1"⟩, ⟨"t2", "n2", "tmp2"⟩, ⟨"t3", "n3", "tmp3"⟩,
       ⟨"t4", "n4", "tmp4"⟩, ⟨"t5", "n5", "tmp5"⟩] 2).2 = false ∧
    flatLookup (installPromote [("t1", "old1")]
      [⟨"t1", "n1", "tmp1"⟩, ⟨"t2", "n2", "tmp2"⟩, ⟨"t3", "n3", "tmp3"⟩,
       ⟨"t4", "n4", "tmp4"⟩, ⟨"t5", "n5", "tmp5"⟩] 2).1 "t1" = some "old1" := by
  have h := install_rollback_atomic [("t1", "old1")]
    [⟨"t1", "n1", "tmp1"⟩, ⟨"t2", "n2", "tmp2"⟩, ⟨"t3", "n3", "tmp3"⟩,
     ⟨"t4", "n4", "tmp4"⟩, ⟨"t5", "n5", "tmp5"⟩] 2
    (by decide) (by decide) (by decide) (by decide)
  exact ⟨h.1, (h.2.2.2 "t1").trans rfl⟩

/-- A cyclic error always reports a genuine dependency path that starts at
the same root as the current traversal path and revisits a name. -/
theorem resolveGo_cyclic_path (reg : SpecRegistry) :
    ∀ (fuel : Nat) (visiting resolved : List String) (name : String)
      (c : List String),
      IsDepPath reg (visiting ++ [name]) →
      resolveGo reg fuel visiting resolved name = .error (.cyclic c) →
      IsDepPath reg c ∧ c.head? = (visiting ++ [name]).head? ∧ ¬ c.Nodup := by
  intro fuel
  induction fuel with
  | zero =>
    intro visiting resolved name c _ h
    rw [resolveGo] at h
    simp at h
  | succ fuel ih =>
    intro visiting resolved name c hpath h
    rw [resolveGo] at h
    by_cases hv : name ∈ visiting
    · rw [if_pos hv] at h
      injection h with h'
      injection h' with h''
      rw [← h'']
      refine ⟨hpath, rfl, fun hnd => ?_⟩
      rw [List.nodup_append] at hnd
      exact hnd.2.2 hv (by simp)
    · rw [if_neg hv] at h
      by_cases hr : name ∈ resolved
      · rw [if_pos hr] at h
        cases h
      · rw [if_neg hr] at h
        cases hl : regLookup reg name with
        | none =>
          rw [hl] at h
          injection h with h'
          cases h'
        | some deps =>
          rw [hl] at h
          have hmap := exceptMap_error h
          obtain ⟨d, hd, acc', hacc'⟩ := foldlM_error _ deps resolved _ hmap
          have hdeps : d ∈ regDeps reg name := by
            rw [regDeps, hl]
            exact hd
          have hpath' : IsDepPath reg ((visiting ++ [name]) ++ [d]) := by
            rw [List.append_assoc]
            exact depPath_extend visiting name d hpath hdeps
          obtain ⟨h1, h2, h3⟩ := ih (visiting ++ [name]) acc' d c hpath' hacc'
          refine ⟨h1, ?_, h3⟩
          rw [h2]
          cases visiting <;> simp

/-- Under a dependency-closed registry, resolution can only succeed or
report a cycle: it never runs out of names to look up or fuel. -/
theorem resolveGo_progress (reg : SpecRegistry) (hclosed : RegClosed reg) :
    ∀ (fuel : Nat) (visiting resolved : List String) (name : String),
      name ∈ regNames reg →
      visiting.Nodup → (∀ v ∈ visiting, v ∈ regNames reg) →
      (regNames reg).toFinset.card + 1 ≤ fuel + visiting.length →
      (∃ r, resolveGo reg fuel visiting resolved name = .ok r) ∨
      (∃ c, resolveGo reg fuel visiting resolved name = .error (.cyclic c)) := by
  intro fuel
  induction fuel with
  | zero =>
    intro visiting resolved name hname hnd hsub hcard
    exfalso
    have h1 : visiting.length ≤ (regNames reg).toFinset.card := by
      rw [← List.toFinset_card_of_nodup hnd]
      refine Finset.card_le_card (fun x hx => ?_)
      rw [List.mem_toFinset] at hx ⊢
      exact hsub x hx
    omega
  | succ fuel ih =>
    intro visiting resolved name hname hnd hsub hcard
    by_cases hv : name ∈ visiting
    · refine Or.inr ⟨visiting ++ [name], ?_⟩
      rw [resolveGo, if_pos hv]
    · by_cases hr : name ∈ resolved
      · refine Or.inl ⟨resolved, ?_⟩
        rw [resolveGo, if_neg hv, if_pos hr]
      · cases hl : regLookup reg name with
        | none => exact absurd hname (regLookup_none hl)
        | some deps =>
          have hred : resolveGo reg (fuel + 1) visiting resolved name =
              (deps.foldlM (fun acc d =>
                resolveGo reg fuel (visiting ++ [name]) acc d) resolved).map
                (fun r => name :: r) := by
            rw [resolveGo, if_neg hv, if_neg hr, hl]
          have hdepsub : ∀ d ∈ deps, d ∈ regNames reg := by
            intro d hd
            exact hclosed (name, deps) (regLookup_mem hl) d hd
          have hvis' : ∀ v ∈ visiting ++ [name], v ∈ regNames reg := by
            intro v hvm
            rcases List.mem_append.mp hvm with hx | hx
            · exact hsub v hx
            · rw [List.mem_singleton.mp hx]
              exact hname
          have hnd' : (visiting ++ [name]).Nodup := by
            rw [List.nodup_append]
            exact ⟨hnd, List.nodup_singleton name,
              fun a ha hb => hv (by rwa [List.mem_singleton.mp hb] at ha)⟩
          have hcard' : (regNames reg).toFinset.card + 1 ≤
              fuel + (visiting ++ [name]).length := by
            rw [List.length_append, List.length_singleton]
            omega
          have inner : ∀ (ds : List String), (∀ d ∈ ds, d ∈ regNames reg) →
              ∀ acc, (∃ accF, ds.foldlM (fun acc d =>
                  resolveGo reg fuel (visiting ++ [name]) acc d) acc = .ok accF) ∨
                (∃ c, ds.foldlM (fun acc d =>
                  resolveGo reg fuel (visiting ++ [name]) acc d) acc =
                    .error (.cyclic c)) := by
            intro ds
            induction ds with
            | nil =>
              intro _ acc
              exact Or.inl ⟨acc, by rw [List.foldlM_nil]; rfl⟩
            | cons d ds ihd =>
              intro hds acc
              rw [List.foldlM_cons]
              rcases ih (visiting ++ [name]) acc d (hds d (List.mem_cons_self d ds))
                  hnd' hvis' hcard' with ⟨r0, hr0⟩ | ⟨c0, hc0⟩
              · rw [hr0]
                exact ihd (fun d' hd' => hds d' (List.mem_cons_of_mem d hd')) r0
              · rw [hc0]
                exact Or.inr ⟨c0, rfl⟩
          rcases inner deps hdepsub resolved with ⟨accF, hF⟩ | ⟨c, hC⟩
          · refine Or.inl ⟨name :: accF, ?_⟩
            rw [hred, hF]
            rfl
          · refine Or.inr ⟨c, ?_⟩
            rw [hred, hC]
            rfl

/-- On success the resolved list is in completion order: each name's
dependencies appear strictly after it, the list has no duplicates, it
extends the incoming resolved set with names outside the current path, and
it contains the resolved name. -/
theorem resolveGo_ok_inv (reg : SpecRegistry) :
    ∀ (fuel : Nat) (visiting resolved : List String) (name : String)
      (r : List String),
      resolveGo reg fuel visiting resolved name = .ok r →
      TopoOk reg resolved → resolved.Nodup →
      TopoOk reg r ∧ r.Nodup ∧
        (∃ pre, r = pre ++ resolved ∧ ∀ x ∈ pre, x ∉ visiting) ∧ name ∈ r := by
  intro fuel
  induction fuel with
  | zero =>
    intro visiting resolved name r h _ _
    rw [resolveGo] at h
    cases h
  | succ fuel ih =>
    intro visiting resolved name r h htopo hnd
    rw [resolveGo] at h
    by_cases hv : name ∈ visiting
    · rw [if_pos hv] at h
      cases h
    rw [if_neg hv] at h
    by_cases hr : name ∈ resolved
    · rw [if_pos hr] at h
      injection h with h'
      rw [← h']
      exact ⟨htopo, hnd, ⟨[], rfl, fun x hx => absurd hx (List.not_mem_nil x)⟩, hr⟩
    rw [if_neg hr] at h
    cases hl : regLookup reg name with
    | none =>
      rw [hl] at h
      cases h
    | some deps =>
      rw [hl] at h
      obtain ⟨accF, hF, hrF⟩ := exceptMap_ok h
      have inner : ∀ (ds : List String) (acc accF' : List String),
          ds.foldlM (fun acc d => resolveGo reg fuel (visiting ++ [name]) acc d)
            acc = .ok accF' →
          TopoOk reg acc → acc.Nodup →
          TopoOk reg accF' ∧ accF'.Nodup ∧
            (∃ pre, accF' = pre ++ acc ∧ ∀ x ∈ pre, x ∉ visiting ++ [name]) ∧
            (∀ d ∈ ds, d ∈ accF') := by
        intro ds
        induction ds with
        | nil =>
          intro acc accF' hFin htopoA hndA
          rw [List.foldlM_nil] at hFin
          injection hFin with h'
          rw [← h']
          exact ⟨htopoA, hndA, ⟨[], rfl, fun x hx => absurd hx (List.not_mem_nil x)⟩,
            fun d hd => absurd hd (List.not_mem_nil d)⟩
        | cons d ds ihd =>
          intro acc accF' hFin htopoA hndA
          rw [List.foldlM_cons] at hFin
          cases hstep : resolveGo reg fuel (visiting ++ [name]) acc d with
          | error e =>
            rw [hstep, show ((Except.error e : Except ResolveErr (List String)) >>=
              fun b => ds.foldlM (fun acc d =>
                resolveGo reg fuel (visiting ++ [name]) acc d) b) =
              .error e from rfl] at hFin
            cases hFin
          | ok acc1 =>
            rw [hstep, show ((Except.ok acc1 : Except ResolveErr (List String)) >>=
              fun b => ds.foldlM (fun acc d =>
                resolveGo reg fuel (visiting ++ [name]) acc d) b) =
              ds.foldlM (fun acc d =>
                resolveGo reg fuel (visiting ++ [name]) acc d) acc1 from rfl] at hFin
            obtain ⟨ht1, hn1, ⟨pre1, hpre1, hpv1⟩, hmem1⟩ :=
              ih (visiting ++ [name]) acc d acc1 hstep htopoA hndA
            obtain ⟨ht2, hn2, ⟨pre2, hpre2, hpv2⟩, hmem2⟩ :=
              ihd acc1 accF' hFin ht1 hn1
            refine ⟨ht2, hn2, ⟨pre2 ++ pre1, ?_, ?_⟩, ?_⟩
            · rw [hpre2, hpre1, List.append_assoc]
            · intro x hx
              rcases List.mem_append.mp hx with hx | hx
              exacts [hpv2 x hx, hpv1 x hx]
            · intro d' hd'
              rcases List.mem_cons.mp hd' with he | hm
              · rw [he, hpre2]
                exact List.mem_append_right pre2 hmem1
              · exact hmem2 d' hm
      obtain ⟨htF, hnF, ⟨preF, hpreF, hpvF⟩, hdF⟩ :=
        inner deps resolved accF hF htopo hnd
      have hnameF : name ∉ accF := by
        intro hmem
        rw [hpreF] at hmem
        rcases List.mem_append.mp hmem with hx | hx
        · exact hpvF name hx (List.mem_append_right visiting (by simp))
        · exact hr hx
      rw [hrF]
      refine ⟨?_, ?_, ⟨name :: preF, ?_, ?_⟩, ?_⟩
      · refine ⟨?_, htF⟩
        intro d hd
        rw [regDeps, hl] at hd
        exact hdF d hd
      · rw [List.nodup_cons]
        exact ⟨hnameF, hnF⟩
      · rw [hpreF]
        rfl
      · intro x hx
        rcases List.mem_cons.mp hx with he | hm
        · rw [he]
          exact hv
        · exact fun hvm => hpvF x hm (List.mem_append_left [name] hvm)
      · exact List.mem_cons_self name accF

/-- Any dependency path starting inside a completion-ordered, duplicate-free
resolved list is itself duplicate-free. -/
theorem topo_path_nodup (reg : SpecRegistry) :
    ∀ (l : List String), TopoOk reg l → l.Nodup →
      ∀ (p : List String) (h : String), IsDepPath reg p → p.head? = some h →
        h ∈ l → p.Nodup ∧ ∀ x ∈ p, x ∈ l := by
  intro l
  induction l with
  | nil =>
    intro _ _ p h _ _ hm
    cases hm
  | cons n rest ihl =>
    intro htopo hnodup p h hp hph hm
    have htopo' : (∀ d ∈ regDeps reg n, d ∈ rest) ∧ TopoOk reg rest := htopo
    have hnodup' : n ∉ rest ∧ rest.Nodup := List.nodup_cons.mp hnodup
    cases hp with
    | single n0 =>
      have hh : n0 = h := by
        injection hph
      refine ⟨List.nodup_singleton n0, ?_⟩
      intro x hx
      rw [List.mem_singleton.mp hx, hh]
      exact hm
    | step a b restp hb hrest =>
      have hh : a = h := by
        injection hph
      rcases List.mem_cons.mp hm with he | hmr
      · have han : a = n := by rw [hh, ← he]
        have hbr : b ∈ rest := htopo'.1 b (by rw [← han]; exact hb)
        obtain ⟨hnd2, hsub2⟩ := ihl htopo'.2 hnodup'.2 (b :: restp) b hrest rfl hbr
        refine ⟨?_, ?_⟩
        · rw [List.nodup_cons]
          refine ⟨fun hmem => ?_, hnd2⟩
          have : a ∈ rest := by
            have := hsub2 a hmem
            exact this
          rw [han] at this
          exact hnodup'.1 this
        · intro x hx
          rcases List.mem_cons.mp hx with hxe | hxm
          · rw [hxe, han]
            exact List.mem_cons_self n rest
          · exact List.mem_cons_of_mem n (hsub2 x hxm)
      · obtain ⟨hnd2, hsub2⟩ := ihl htopo'.2 hnodup'.2 (a :: b :: restp) a
          (.step a b restp hb hrest) rfl (by rw [hh]; exact hmr)
        refine ⟨hnd2, fun x hx => List.mem_cons_of_mem n (hsub2 x hx)⟩

/-- Claim C6 (spec-modelled): on a dependency-closed registry whose
dependency graph reaches a cycle from the root — a dependency path from
the root that revisits a name — `resolve(root)` fails with
`CyclicDependency` carrying a genuine dependency path from the root that
revisits a name; in particular it never produces a resolution result. -/
theorem cyclic_dependency_detected (reg : SpecRegistry) (root : String)
    (hclosed : RegClosed reg) (hroot : root ∈ regNames reg)
    (hcycle : ∃ p, IsDepPath reg p ∧ p.head? = some root ∧ ¬ p.Nodup) :
    ∃ c, resolve reg root = .error (.cyclic c) ∧ IsDepPath reg c ∧
      c.head? = some root ∧ ¬ c.Nodup := by
  have hcard : (regNames reg).toFinset.card + 1 ≤ (reg.length + 1) + ([] : List String).length := by
    have h1 : (regNames reg).toFinset.card ≤ (regNames reg).length :=
      List.toFinset_card_le (regNames reg)
    have h2 : (regNames reg).length = reg.length := List.length_map reg _
    simp only [List.length_nil]
    omega
  rcases resolveGo_progress reg hclosed (reg.length + 1) [] [] root hroot
      List.nodup_nil (fun v hv => absurd hv (List.not_mem_nil v)) hcard with
    ⟨r, hrok⟩ | ⟨c, hc⟩
  · exfalso
    obtain ⟨htopo, hnd, _, hrootmem⟩ :=
      resolveGo_ok_inv reg (reg.length + 1) [] [] root r hrok trivial List.nodup_nil
    obtain ⟨p, hp, hph, hpnd⟩ := hcycle
    exact hpnd (topo_path_nodup reg r htopo hnd p root hp hph hrootmem).1
  · obtain ⟨h1, h2, h3⟩ := resolveGo_cyclic_path reg (reg.length + 1) [] [] root c
      (.single root) hc
    exact ⟨c, hc, h1, by rw [h2]; rfl, h3⟩

/-- Witness for C6: on components A→B→C→A, `resolve(A)` fails with a
`CyclicDependency` naming a revisiting dependency path from A. -/
theorem cyclic_dependency_detected_witness :
    ∃ c, resolve cycleReg "A" = .error (.cyclic c) ∧ IsDepPath cycleReg c ∧
      c.head? = some "A" ∧ ¬ c.Nodup :=
  cyclic_dependency_detected cycleReg "A" (by unfold RegClosed; decide) (by decide)
    ⟨["A", "B", "C", "A"],
     .step "A" "B" _ (by decide)
       (.step "B" "C" _ (by decide)
         (.step "C" "A" _ (by decide) (.single "A"))),
     rfl, by decide⟩

end FetchUI
